import Mathlib

/-!
Verification of the workspace synchronization module
(`app/background-process/web-apis/workspaces.js`).

JavaScript strings (paths, file contents, ignore-file lines) are embedded as
`List Char`; `startsWith`/`endsWith`/`slice`/`charAt` become `List.isPrefixOf`,
`List.isSuffixOf`, `List.dropLast` and indexed lookup.  Fallible callbacks
(`fs.stat`, `fs.readFile`) are embedded as `Except IOError _` inputs.  The
external collaborators (the `diff-file-tree` engine, the `anymatch` glob
matcher, the `diff` line-differ, the mime name/content classifier, the `timer`
wrapper and Node's `path.normalize`) are not part of the source tree; they are
modelled from the specification, each marked as such in its doc comment.
-/

/-- Error message carried by a failed filesystem callback. -/
abbrev IOError := List Char

/-- Separator character used by the POSIX `path` module (`path.sep`). -/
def pathSep : Char := '/'

/-- Splits a character list on a separator character; mirrors
`String.prototype.split` with a one-character separator. -/
def splitOnChar (sep : Char) : List Char → List (List Char)
  | [] => [[]]
  | c :: rest =>
    let r := splitOnChar sep rest
    if c = sep then [] :: r
    else
      match r with
      | s :: ss => (c :: s) :: ss
      | [] => [[c]]

/-- Joins path segments with the separator; mirrors `Array.prototype.join('/')`. -/
def joinSep : List (List Char) → List Char
  | [] => []
  | [s] => s
  | s :: rest => s ++ pathSep :: joinSep rest

/-- Modelled from the spec: one resolution step of Node's `path.normalize`
segment processing (missing external: Node `path` module).  The accumulator is
the reversed stack of kept segments; `.` and empty segments are dropped, `..`
pops a segment (or is kept when the path is relative and nothing can be
popped). -/
def normStep (allowAbove : Bool) (stack : List (List Char)) (seg : List Char) :
    List (List Char) :=
  if seg = [] ∨ seg = ['.'] then stack
  else if seg = ['.', '.'] then
    match stack with
    | top :: rest => if top = ['.', '.'] then seg :: stack else rest
    | [] => if allowAbove then [seg] else []
  else seg :: stack

/-- Modelled from the spec: Node's POSIX `path.normalize` (missing external:
Node `path` module).  Resolves `.`/`..` segments, collapses repeated
separators, and preserves a trailing separator. -/
def pathNormalize (p : List Char) : List Char :=
  if p = [] then ['.']
  else
    let isAbs := p.head? = some pathSep
    let trailing := p.getLast? = some pathSep
    let core := joinSep ((splitOnChar pathSep p).foldl (normStep (!isAbs)) []).reverse
    if core = [] then
      if isAbs then [pathSep] else if trailing then ['.', pathSep] else ['.']
    else
      let core := if trailing then core ++ [pathSep] else core
      if isAbs then pathSep :: core else core

/-- Helper `stat` from the source: resolves the raw callback outcome to the
stat data, or to `null` (here `none`) on any error. -/
structure FileStat where
  isFile : Bool
  size : Nat
deriving DecidableEq, Repr

/-- Source helper `stat(fs, filepath)`: `resolve(data || null)`. -/
def stat (raw : Except IOError FileStat) : Option FileStat :=
  match raw with
  | .ok d => some d
  | .error _ => none

/-- Source helper `readFile(fs, filepath)`: `resolve(data || '')`. -/
def readFile (raw : Except IOError (List Char)) : List Char :=
  match raw with
  | .ok d => d
  | .error _ => []

/-- Lexicographic comparison used to give the modelled diff a deterministic
(sorted) output order. -/
def pathLe : List Char → List Char → Bool
  | [], _ => true
  | _ :: _, [] => false
  | a :: as, b :: bs => if a = b then pathLe as bs else decide (a < b)

/-- Insertion step of the deterministic path ordering. -/
def insertPath (x : List Char) : List (List Char) → List (List Char)
  | [] => [x]
  | y :: ys => if pathLe x y then x :: y :: ys else y :: insertPath x ys

/-- Insertion sort of candidate paths (deterministic diff ordering). -/
def sortPaths : List (List Char) → List (List Char)
  | [] => []
  | x :: xs => insertPath x (sortPaths xs)

/-- Modelled from the spec: a node of an abstract hierarchical Tree (missing
external: the `diff-file-tree` store abstraction) — a directory, or a file
with byte content. -/
inductive FNode
  | dir
  | file (content : List Char)
deriving DecidableEq, Repr

/-- Modelled from the spec: an abstract Tree, a finite path-to-node map over
normalized paths (data-model section of the spec). -/
abbrev FsTree := List (List Char × FNode)

/-- Node stored at a path of a tree, if any. -/
def treeLookup : FsTree → List Char → Option FNode
  | [], _ => none
  | (q, n) :: rest, p => if q = p then some n else treeLookup rest p

/-- Writes a node at a path (replacing any existing binding). -/
def treeInsert : FsTree → List Char → FNode → FsTree
  | [], p, n => [(p, n)]
  | (q, m) :: rest, p, n =>
    if q = p then (p, n) :: rest else (q, m) :: treeInsert rest p n

/-- Deletes a path from a tree. -/
def treeErase : FsTree → List Char → FsTree
  | [], _ => []
  | (q, m) :: rest, p =>
    if q = p then treeErase rest p else (q, m) :: treeErase rest p

/-- Paths bound in a tree. -/
def treePaths (t : FsTree) : List (List Char) := t.map (fun e => e.1)

/-- Modelled from the spec: the change kind of a DiffEntry (missing external:
`diff-file-tree`). -/
inductive Change
  | add
  | remove
  | modify
deriving DecidableEq, Repr

/-- Modelled from the spec: one reported difference between two Trees
(missing external: `diff-file-tree`). -/
structure DiffEntry where
  path : List Char
  change : Change
  isDirectory : Bool
deriving DecidableEq, Repr

/-- Modelled from the spec: options carried by a diff invocation — `shallow`
(default true), `compareContent` (default true) and an optional filter
predicate, true meaning the path is skipped (missing external:
`diff-file-tree`). -/
structure DiffOpts where
  compareContent : Bool := true
  shallow : Bool := true
  filter : Option (List Char → Bool) := none

/-- Whether a node is a directory. -/
def isDirNode : FNode → Bool
  | .dir => true
  | .file _ => false

/-- Modelled from the spec: the proper ancestor directories of a path
(joins of proper segment prefixes). -/
def pathAncestors (p : List Char) : List (List Char) :=
  let segs := splitOnChar pathSep p
  ((List.range segs.length).drop 1).map (fun k => joinSep (segs.take k))

/-- Modelled from the spec: a path is skipped by the active filter when the
filter matches it or any of its ancestor directories (excluded paths are
skipped entirely, including their descendants). -/
def hiddenByFilter (opts : DiffOpts) (p : List Char) : Bool :=
  match opts.filter with
  | some f => f p || (pathAncestors p).any f
  | none => false

/-- Modelled from the spec: classification of one candidate path — present
only in source is Add, only in destination is Remove, present in both with
differing content (when `compareContent`) is Modify; the Bool is
directory-ness (missing external: `diff-file-tree`). -/
def changeAt (src dst : FsTree) (compareContent : Bool) (p : List Char) :
    Option (Change × Bool) :=
  match treeLookup src p, treeLookup dst p with
  | some n, none => some (Change.add, isDirNode n)
  | none, some n => some (Change.remove, isDirNode n)
  | some a, some b =>
    if compareContent ∧ a ≠ b then some (Change.modify, isDirNode a) else none
  | none, none => none

/-- Modelled from the spec: whether a path is a directory present on exactly
one side (the case whose descendants a shallow diff suppresses). -/
def isOneSideDir (src dst : FsTree) (p : List Char) : Bool :=
  match treeLookup src p, treeLookup dst p with
  | some n, none => isDirNode n
  | none, some n => isDirNode n
  | _, _ => false

/-- Modelled from the spec: the Diff Engine `dft.diff(src, dst, opts)`
(missing external: `diff-file-tree`).  Enumerates the union of both path
sets in deterministic sorted order, skips filtered paths (and descendants of
filtered directories), suppresses descendants of one-side-only directories
when `shallow`, and classifies the rest via `changeAt`. -/
def dftDiff (src dst : FsTree) (opts : DiffOpts) : List DiffEntry :=
  let cands := sortPaths ((treePaths src ++ treePaths dst).dedup)
  cands.filterMap (fun p =>
    if hiddenByFilter opts p then none
    else if opts.shallow &&
        (pathAncestors p).any
          (fun a => !hiddenByFilter opts a && isOneSideDir src dst a) then none
    else
      match changeAt src dst opts.compareContent p with
      | some (c, b) => some ⟨p, c, b⟩
      | none => none)

/-- Modelled from the spec: one step of `dft.applyRight(left, right, entries)`
— Add/Modify copies the node at the entry's path from the left tree into the
right tree, Remove deletes it from the right tree (missing external:
`diff-file-tree`). -/
def applyRightEntry (left : FsTree) (right : FsTree) (e : DiffEntry) : FsTree :=
  match e.change with
  | .add | .modify =>
    match treeLookup left e.path with
    | some n => treeInsert right e.path n
    | none => right
  | .remove => treeErase right e.path

/-- Modelled from the spec: `dft.applyRight(left, right, entries)` mutates the
right tree to match the left tree, entry by entry in order. -/
def applyRight (left right : FsTree) (entries : List DiffEntry) : FsTree :=
  entries.foldl (applyRightEntry left) right

/-- Modelled from the spec: one step of `dft.applyLeft(left, right, entries)`
— the right tree is the source of truth: an entry recorded Add (present only
on the left) is deleted from the left tree, Remove/Modify copies the node
from the right tree into the left tree (missing external: `diff-file-tree`). -/
def applyLeftEntry (right : FsTree) (left : FsTree) (e : DiffEntry) : FsTree :=
  match e.change with
  | .add => treeErase left e.path
  | .remove | .modify =>
    match treeLookup right e.path with
    | some n => treeInsert left e.path n
    | none => left

/-- Modelled from the spec: `dft.applyLeft(left, right, entries)` mutates the
left tree to match the right tree, entry by entry in order. -/
def applyLeft (left right : FsTree) (entries : List DiffEntry) : FsTree :=
  entries.foldl (applyLeftEntry right) left

/-- Modelled from the spec: the glob matcher (missing external: `anymatch`)
restricted to the pattern shapes the Ignore-Rule Compiler emits — a pattern
opening with the recursive-wildcard marker `**/` matches its literal suffix at
any depth, any other pattern matches exactly. -/
def patternMatches (pat p : List Char) : Bool :=
  if ['*', '*', '/'].isPrefixOf pat then
    let suffix := pat.drop 3
    decide (p = suffix) || (pathSep :: suffix).isSuffixOf p
  else decide (p = pat)

/-- Modelled from the spec: `anymatch(rules, path)` — true when any rule of
the set matches the path (missing external: `anymatch`). -/
def anymatch (rules : List (List Char)) (p : List Char) : Bool :=
  rules.any (fun pat => patternMatches pat p)

/-- Source `readDatIgnore(fs)`: reads `.datignore` (empty on failure), keeps
non-empty lines, prefixes `**/` onto every line not starting with `/`,
appends the fixed `/.git` and `/.dat` rules, and path-normalizes every
pattern. -/
def readDatIgnore (raw : Except IOError (List Char)) : List (List Char) :=
  let rulesRaw := readFile raw
  (((splitOnChar '\n' rulesRaw).filter (fun l => !l.isEmpty)).map
      (fun rule => if ['/'].isPrefixOf rule then rule else '*' :: '*' :: '/' :: rule)
    ++ ["/.git".toList, "/.dat".toList]).map pathNormalize

/-- Source `makeDiffFilterByPaths(targetPaths)`: normalizes the targets and
returns the predicate that answers `false` for the target itself, for paths
inside a directory target (trailing separator) and for ancestor folders of a
target, and `true` otherwise. -/
def makeDiffFilterByPaths (targetPaths : List (List Char)) :
    List Char → Bool :=
  let targetPaths := targetPaths.map pathNormalize
  fun filepath =>
    !(targetPaths.any (fun targetPath =>
        (if targetPath.getLast? = some pathSep then
          decide (filepath = targetPath.dropLast) || targetPath.isPrefixOf filepath
        else decide (filepath = targetPath))
        || (filepath.isPrefixOf targetPath
            && decide (targetPath.get? filepath.length = some pathSep))))

/-- Source constant `MAX_DIFF_SIZE = 1e5`. -/
def MAX_DIFF_SIZE : Nat := 100000

/-- Modelled from the spec: name-based binary classification (missing
repository file: `lib/mime`'s `isFileNameBinary`) — a fixed set of extensions
classifies a name as binary (`some true`), another as text (`some false`),
and any other name is inconclusive (`none`, JS `undefined`). -/
def binaryNameExtensions : List (List Char) :=
  ["png", "jpg", "jpeg", "gif", "ico", "zip", "gz", "mp3", "mp4",
   "pdf", "woff"].map String.toList

/-- Modelled from the spec: extensions treated as definitely textual by the
name heuristic (missing repository file: `lib/mime`). -/
def textNameExtensions : List (List Char) :=
  ["txt", "md", "js", "json", "css", "html", "htm", "xml", "csv"].map
    String.toList

/-- Extension of a file name: the part after the last dot, empty when the
name has no dot. -/
def fileExtension (p : List Char) : List Char :=
  let parts := splitOnChar '.' p
  if parts.length ≤ 1 then [] else parts.getLastD []

/-- Modelled from the spec: `isFileNameBinary(filepath)` (missing repository
file: `lib/mime`). -/
def isFileNameBinary (p : List Char) : Option Bool :=
  if (binaryNameExtensions).contains (fileExtension p) then some true
  else if (textNameExtensions).contains (fileExtension p) then some false
  else none

/-- Modelled from the spec: one hunk of the line-level diff produced by the
external `diff` package's `diffLines` (missing external: `diff`). -/
structure DiffPart where
  value : List Char
  added : Bool
  removed : Bool
deriving DecidableEq, Repr

/-- Modelled from the spec: `diff.diffLines(oldFile, newFile)` — a line-level
diff; only that a diff is produced matters here, so equal inputs give one
unchanged hunk and differing inputs a removed and an added hunk (missing
external: `diff`). -/
def diffLines (oldFile newFile : List Char) : List DiffPart :=
  if oldFile = newFile then [⟨oldFile, false, false⟩]
  else [⟨oldFile, false, true⟩, ⟨newFile, true, false⟩]

/-- Errors surfaced by the modelled operations: `InvalidEncodingError`,
`SourceTooLargeError`, and the `timer` timeout. -/
inductive WsError
  | invalidEncoding
  | sourceTooLarge
  | timeout
deriving DecidableEq, Repr

/-- Whether the timeout-guarded archive acquisition completes within its
window. -/
inductive AcqOutcome
  | ok
  | timedOut
deriving DecidableEq, Repr

/-- Modelled from the spec: `timer(ms, fn)` wraps archive acquisition in a
fixed timeout and fails the operation with a Timeout error when acquisition
does not complete within the window (missing repository file:
`lib/time`'s `timer`). -/
def timer (_ms : Nat) (acq : AcqOutcome) : Except WsError Unit :=
  match acq with
  | .ok => .ok ()
  | .timedOut => .error .timeout

/-- A caller-supplied JavaScript value inside an options `paths` array:
either a string or something of another type. -/
inductive JSVal
  | str (s : List Char)
  | nonStr
deriving DecidableEq, Repr

/-- A caller-supplied options object before validation: each field is absent
(or of the wrong type), modelled as `none`, or carries a value. -/
structure RawOpts where
  compareContent : Option Bool
  shallow : Option Bool
  paths : Option (List JSVal)
deriving DecidableEq, Repr

/-- Result shape of `massageDiffOpts`: `paths` is `none` for the JS literal
`false` (given when the caller supplied no array). -/
structure DiffSettings where
  compareContent : Bool
  shallow : Bool
  paths : Option (List (List Char))
deriving DecidableEq, Repr

/-- Source `massageDiffOpts(opts)`: booleans default to `true`, and `paths`
keeps only the string members of a supplied array, becoming `false` (`none`)
otherwise. -/
def massageDiffOpts (o : RawOpts) : DiffSettings :=
  { compareContent := o.compareContent.getD true
    shallow := o.shallow.getD true
    paths := o.paths.map (fun vs =>
      vs.filterMap (fun v =>
        match v with
        | .str s => some s
        | .nonStr => none)) }

/-- Filter construction shared by `listChangedFiles`, `publish` and `revert`:
an explicit (truthy, possibly empty) `paths` array yields the path-scope
filter, otherwise the `.datignore` rules yield the ignore filter. -/
def buildDiffFilter (paths : Option (List (List Char)))
    (ignoreRaw : Except IOError (List Char)) : List Char → Bool :=
  match paths with
  | some ps => makeDiffFilterByPaths ps
  | none => fun filepath => anymatch (readDatIgnore ignoreRaw) filepath

/-- Diff options passed by `publish` and `revert` to the diff engine: the
massaged settings with `opts.shallow = false` forced and the built filter
installed. -/
def forcedDiffOpts (settings : DiffSettings) (filt : List Char → Bool) :
    DiffOpts :=
  { compareContent := settings.compareContent
    shallow := false
    filter := some filt }

/-- The add-only entry list `setupFolder` applies: the archive→local diff
restricted to entries whose change kind is `add`
(`diff.filter(d => d.change === 'add')`). -/
def setupFolderEntries (localT archiveT : FsTree) : List DiffEntry :=
  (dftDiff archiveT localT {}).filter (fun d => decide (d.change = Change.add))

/-- Source `setupFolder(profileId, name)`: after the timeout-guarded
acquisition, applies the add-only archive→local diff to the local tree.
Returns the operation result together with the final local and archive
trees. -/
def setupFolder (acq : AcqOutcome) (localT archiveT : FsTree) :
    Except WsError Bool × FsTree × FsTree :=
  match timer 3000 acq with
  | .error e => (.error e, localT, archiveT)
  | .ok _ =>
    (.ok true, applyRight archiveT localT (setupFolderEntries localT archiveT),
     archiveT)

/-- Source `listChangedFiles(profileId, name, opts)`: massages the options,
acquires the trees under the timeout, installs the path-scope or ignore
filter, and runs the local-vs-archive diff. -/
def listChangedFiles (acq : AcqOutcome) (rawOpts : RawOpts)
    (ignoreRaw : Except IOError (List Char)) (localT archiveT : FsTree) :
    Except WsError (List DiffEntry) :=
  let opts := massageDiffOpts rawOpts
  match timer 3000 acq with
  | .error e => .error e
  | .ok _ =>
    .ok (dftDiff localT archiveT
      { compareContent := opts.compareContent
        shallow := opts.shallow
        filter := some (buildDiffFilter opts.paths ignoreRaw) })

/-- Source `publish(profileId, name, opts)`: like `listChangedFiles` but with
`shallow` forced to `false`, applying the diff left-to-right onto the
archive. -/
def publish (acq : AcqOutcome) (rawOpts : RawOpts)
    (ignoreRaw : Except IOError (List Char)) (localT archiveT : FsTree) :
    Except WsError Unit × FsTree × FsTree :=
  let opts := massageDiffOpts rawOpts
  match timer 3000 acq with
  | .error e => (.error e, localT, archiveT)
  | .ok _ =>
    let dopts := forcedDiffOpts opts (buildDiffFilter opts.paths ignoreRaw)
    (.ok (), localT, applyRight localT archiveT (dftDiff localT archiveT dopts))

/-- Source `revert(profileId, name, opts)`: like `publish` but applying the
diff right-to-left onto the local tree. -/
def revert (acq : AcqOutcome) (rawOpts : RawOpts)
    (ignoreRaw : Except IOError (List Char)) (localT archiveT : FsTree) :
    Except WsError Unit × FsTree × FsTree :=
  let opts := massageDiffOpts rawOpts
  match timer 3000 acq with
  | .error e => (.error e, localT, archiveT)
  | .ok _ =>
    let dopts := forcedDiffOpts opts (buildDiffFilter opts.paths ignoreRaw)
    (.ok (), applyLeft localT archiveT (dftDiff localT archiveT dopts), archiveT)

/-- One side of a single-file diff: the raw `fs.stat` outcome, the content
sniff verdict the mime module would give, and the raw `fs.readFile`
outcome. -/
structure RawFile where
  statRaw : Except IOError FileStat
  contentBinary : Bool
  readRaw : Except IOError (List Char)

/-- Whether a nullable stat is a present plain file (`st && st.isFile()`). -/
def statIsFile (st : Option FileStat) : Bool :=
  match st with
  | some s => s.isFile
  | none => false

/-- Whether a nullable stat is a present plain file above the diff size
ceiling (`st && st.isFile() && st.size > MAX_DIFF_SIZE`). -/
def statTooLarge (st : Option FileStat) : Bool :=
  match st with
  | some s => s.isFile && decide (s.size > MAX_DIFF_SIZE)
  | none => false

/-- Source method `diff(profileId, name, filepath)` (the single-file diff):
normalizes the path, rejects names classified binary before anything else,
acquires the trees under the timeout, applies the content-sniff and size
guards to each side, and line-diffs the two contents (missing sides read as
the empty string). -/
def diffFile (acq : AcqOutcome) (filepath : List Char)
    (localF archiveF : RawFile) : Except WsError (List DiffPart) :=
  let filepath := pathNormalize filepath
  let isBinary := isFileNameBinary filepath
  if isBinary = some true then .error .invalidEncoding
  else
    match timer 3000 acq with
    | .error e => .error e
    | .ok _ =>
      let st := stat localF.statRaw
      if isBinary ≠ some false ∧ statIsFile st ∧ localF.contentBinary then
        .error .invalidEncoding
      else if statTooLarge st then .error .sourceTooLarge
      else
        let st := stat archiveF.statRaw
        if isBinary ≠ some false ∧ statIsFile st ∧ archiveF.contentBinary then
          .error .invalidEncoding
        else if statTooLarge st then .error .sourceTooLarge
        else
          let newFile := readFile localF.readRaw
          let oldFile := readFile archiveF.readRaw
          .ok (diffLines oldFile newFile)

/-- Decidable equality of operation results, used to evaluate the model at
concrete inputs. -/
instance {ε α : Type} [DecidableEq ε] [DecidableEq α] :
    DecidableEq (Except ε α) := fun x y =>
  match x, y with
  | .ok a, .ok b =>
    if h : a = b then isTrue (by rw [h]) else isFalse (by simp [h])
  | .error a, .error b =>
    if h : a = b then isTrue (by rw [h]) else isFalse (by simp [h])
  | .ok _, .error _ => isFalse (by simp)
  | .error _, .ok _ => isFalse (by simp)

/-- Spec-side reading of the Path-Scope Filter: a path is matched (excluded
from scope, predicate false) exactly when some target equals it, it lies
under some directory target (trailing separator), or it is an ancestor
directory of some target — ancestors read at string level: the target
extends the path across a separator, the boundary case `t = p ++ [sep]`
being the directory target's own node. -/
def specScopeExcluded (targets : List (List Char)) (p : List Char) : Prop :=
  ∃ t ∈ targets, p = t ∨
    (t.getLast? = some pathSep ∧ t.isPrefixOf p = true) ∨
    ∃ r, t = p ++ pathSep :: r

theorem mem_insertPath (x a : List Char) (l : List (List Char)) :
    a ∈ insertPath x l ↔ a = x ∨ a ∈ l := by
  induction l with
  | nil => simp [insertPath]
  | cons y ys ih =>
    by_cases h : pathLe x y = true
    · simp [insertPath, h]
    · simp [insertPath, h, ih]
      tauto

theorem mem_sortPaths (a : List Char) (l : List (List Char)) :
    a ∈ sortPaths l ↔ a ∈ l := by
  induction l with
  | nil => simp [sortPaths]
  | cons x xs ih => simp [sortPaths, mem_insertPath, ih]

theorem treeLookup_insert_ne (t : FsTree) (q p : List Char) (n : FNode)
    (h : q ≠ p) : treeLookup (treeInsert t q n) p = treeLookup t p := by
  induction t with
  | nil => simp [treeInsert, treeLookup, h]
  | cons e rest ih =>
    by_cases hq : e.1 = q
    · simp [treeInsert, hq, treeLookup, h]
    · simp [treeInsert, hq, treeLookup]
      by_cases hp : e.1 = p
      · simp [hp]
      · simp [hp, ih]

theorem treeLookup_erase_ne (t : FsTree) (q p : List Char) (h : q ≠ p) :
    treeLookup (treeErase t q) p = treeLookup t p := by
  induction t with
  | nil => simp [treeErase]
  | cons e rest ih =>
    by_cases hq : e.1 = q
    · have hp : e.1 ≠ p := by simpa [hq] using h
      simp [treeErase, hq, treeLookup, hp, ih, h]
    · simp [treeErase, hq, treeLookup]
      by_cases hp : e.1 = p
      · simp [hp]
      · simp [hp, ih]

/-- Membership in `List.isPrefixOf` as an existential decomposition. -/
theorem isPrefixOfEq (l₁ l₂ : List Char) :
    l₁.isPrefixOf l₂ = true ↔ ∃ s, l₂ = l₁ ++ s := by
  induction l₁ generalizing l₂ with
  | nil => simp [List.isPrefixOf]
  | cons a as ih =>
    cases l₂ with
    | nil => simp [List.isPrefixOf]
    | cons b bs =>
      simp only [List.isPrefixOf, Bool.and_eq_true, beq_iff_eq, ih,
        List.cons_append, List.cons.injEq]
      constructor
      · rintro ⟨hab, s, hs⟩
        exact ⟨s, ⟨hab.symm, hs⟩⟩
      · rintro ⟨s, hb, hs⟩
        exact ⟨hb.symm, s, hs⟩

/-- Membership in `List.isSuffixOf` as an existential decomposition. -/
theorem isSuffixOfEq (l₁ l₂ : List Char) :
    l₁.isSuffixOf l₂ = true ↔ ∃ s, l₂ = s ++ l₁ := by
  rw [List.isSuffixOf, isPrefixOfEq]
  constructor
  · rintro ⟨s, hs⟩
    refine ⟨s.reverse, ?_⟩
    have := congrArg List.reverse hs
    simpa using this
  · rintro ⟨s, rfl⟩
    exact ⟨s.reverse, by simp⟩

/-- Every entry the modelled diff engine emits survives the active filter and
carries the classification `changeAt` computed for its path. -/
theorem mem_dftDiff_elim (src dst : FsTree) (opts : DiffOpts) (e : DiffEntry)
    (he : e ∈ dftDiff src dst opts) :
    hiddenByFilter opts e.path = false ∧
    changeAt src dst opts.compareContent e.path = some (e.change, e.isDirectory) := by
  unfold dftDiff at he
  rw [List.mem_filterMap] at he
  obtain ⟨p, _, hf⟩ := he
  by_cases h1 : hiddenByFilter opts p = true
  · simp [h1] at hf
  · rw [Bool.not_eq_true] at h1
    by_cases h2 : (opts.shallow &&
        (pathAncestors p).any
          (fun a => !hiddenByFilter opts a && isOneSideDir src dst a)) = true
    · simp [h1, h2] at hf
    · rw [Bool.not_eq_true] at h2
      cases hc : changeAt src dst opts.compareContent p with
      | none => simp [h1, h2, hc] at hf
      | some cb =>
        simp [h1, h2, hc] at hf
        subst hf
        exact ⟨h1, hc⟩

/-- An `add` classification means the path is absent from the destination
tree. -/
theorem changeAt_add_dst_none (src dst : FsTree) (cc : Bool) (p : List Char)
    (b : Bool) (h : changeAt src dst cc p = some (Change.add, b)) :
    treeLookup dst p = none := by
  unfold changeAt at h
  cases hs : treeLookup src p <;> cases hd : treeLookup dst p <;>
    simp [hs, hd] at h
  rfl

/-- Applying a diff on the right leaves every path outside the entry list
untouched. -/
theorem applyRight_lookup_of_not_mem (left : FsTree) (es : List DiffEntry)
    (right : FsTree) (p : List Char) (h : ∀ e ∈ es, e.path ≠ p) :
    treeLookup (applyRight left right es) p = treeLookup right p := by
  induction es generalizing right with
  | nil => rfl
  | cons e rest ih =>
    have hp : e.path ≠ p := h e (by simp)
    have hr : ∀ x ∈ rest, x.path ≠ p := fun x hx => h x (by simp [hx])
    show treeLookup (applyRight left (applyRightEntry left right e) rest) p = _
    rw [ih (applyRightEntry left right e) hr]
    unfold applyRightEntry
    cases e.change with
    | add =>
      cases hl : treeLookup left e.path with
      | none => rfl
      | some n => exact treeLookup_insert_ne right e.path p n hp
    | modify =>
      cases hl : treeLookup left e.path with
      | none => rfl
      | some n => exact treeLookup_insert_ne right e.path p n hp
    | remove => exact treeLookup_erase_ne right e.path p hp

/-- C5: for every file path whose name alone classifies it as binary, the
single-file diff fails with an EncodingError regardless of the file inputs
(and before any tree content is read). -/
theorem diffFile_binary_name (acq : AcqOutcome) (filepath : List Char)
    (localF archiveF : RawFile)
    (h : isFileNameBinary (pathNormalize filepath) = some true) :
    diffFile acq filepath localF archiveF = .error .invalidEncoding := by
  unfold diffFile
  simp [h]

/-- Witness for C5 at `photo.png` with unreadable contents on both sides. -/
theorem diffFile_binary_name_witness :
    isFileNameBinary (pathNormalize "photo.png".toList) = some true ∧
    diffFile .ok "photo.png".toList ⟨.ok ⟨true, 1⟩, false, .ok []⟩
      ⟨.error [], false, .error []⟩ = .error .invalidEncoding :=
  ⟨by decide, diffFile_binary_name _ _ _ _ (by decide)⟩

/-- C6: for a text-classified file present on both sides, the single-file
diff fails with SizeExceeded exactly when one side strictly exceeds the
100000-byte ceiling, and succeeds with a line diff otherwise. -/
theorem diffFile_size_guard (filepath : List Char) (localF archiveF : RawFile)
    (n m : Nat)
    (hname : isFileNameBinary (pathNormalize filepath) = some false)
    (hls : localF.statRaw = .ok ⟨true, n⟩)
    (has : archiveF.statRaw = .ok ⟨true, m⟩) :
    (diffFile .ok filepath localF archiveF = .error .sourceTooLarge ↔
      MAX_DIFF_SIZE < n ∨ MAX_DIFF_SIZE < m) ∧
    (n ≤ MAX_DIFF_SIZE → m ≤ MAX_DIFF_SIZE →
      diffFile .ok filepath localF archiveF =
        .ok (diffLines (readFile archiveF.readRaw) (readFile localF.readRaw))) := by
  constructor
  · by_cases hn : MAX_DIFF_SIZE < n <;> by_cases hm : MAX_DIFF_SIZE < m <;>
      simp [diffFile, timer, hname, hls, has, stat, statIsFile, statTooLarge,
        hn, hm]
  · intro h1 h2
    have hn : ¬ MAX_DIFF_SIZE < n := not_lt.mpr h1
    have hm : ¬ MAX_DIFF_SIZE < m := not_lt.mpr h2
    simp [diffFile, timer, hname, hls, has, stat, statIsFile, statTooLarge,
      hn, hm]

/-- Witness for C6: 100001 bytes fails with SizeExceeded, 100000 bytes is
diffed successfully. -/
theorem diffFile_size_guard_witness :
    diffFile .ok "a.txt".toList ⟨.ok ⟨true, 100001⟩, false, .ok "x".toList⟩
      ⟨.ok ⟨true, 7⟩, false, .ok "y".toList⟩ = .error .sourceTooLarge ∧
    diffFile .ok "a.txt".toList ⟨.ok ⟨true, 100000⟩, false, .ok "x".toList⟩
      ⟨.ok ⟨true, 7⟩, false, .ok "y".toList⟩ =
      .ok (diffLines "y".toList "x".toList) :=
  ⟨(diffFile_size_guard _ _ _ 100001 7 (by decide) rfl rfl).1.mpr
      (Or.inl (by decide)),
    (diffFile_size_guard _ _ _ 100000 7 (by decide) rfl rfl).2 (by decide)
      (by decide)⟩

/-- C9: the stat helper resolves to null and the read helper to the empty
string on any underlying error, so a file missing or unreadable on the
archive side is line-diffed against empty content instead of failing. -/
theorem diffFile_missing_side :
    (∀ e : IOError, stat (.error e) = none) ∧
    (∀ e : IOError, readFile (.error e) = []) ∧
    (∀ (filepath : List Char) (localF archiveF : RawFile) (n : Nat)
      (e₁ e₂ : IOError),
      isFileNameBinary (pathNormalize filepath) = some false →
      localF.statRaw = .ok ⟨true, n⟩ → n ≤ MAX_DIFF_SIZE →
      archiveF.statRaw = .error e₁ → archiveF.readRaw = .error e₂ →
      diffFile .ok filepath localF archiveF =
        .ok (diffLines [] (readFile localF.readRaw))) := by
  refine ⟨fun e => rfl, fun e => rfl, ?_⟩
  intro fp lf af n e₁ e₂ hname hls hn has har
  have hnlt : ¬ MAX_DIFF_SIZE < n := not_lt.mpr hn
  simp [diffFile, timer, hname, hls, has, har, stat, statIsFile, statTooLarge,
    readFile, hnlt]

/-- Witness for C9: a text file unreadable and unstattable on the archive
side is diffed against the empty string. -/
theorem diffFile_missing_side_witness :
    diffFile .ok "a.txt".toList ⟨.ok ⟨true, 2⟩, false, .ok "hi".toList⟩
      ⟨.error "gone".toList, false, .error "gone".toList⟩ =
      .ok (diffLines [] "hi".toList) :=
  diffFile_missing_side.2.2 "a.txt".toList _ _ 2 "gone".toList "gone".toList
    (by decide) rfl (by decide) rfl rfl

/-- C7: with a timed-out archive acquisition every operation fails with the
Timeout error and returns both trees unchanged (for the single-file diff,
provided the earlier name-based binary rejection did not already fire). -/
theorem timeout_no_mutation (localT archiveT : FsTree) (rawOpts : RawOpts)
    (ignoreRaw : Except IOError (List Char)) (filepath : List Char)
    (localF archiveF : RawFile) :
    setupFolder .timedOut localT archiveT = (.error .timeout, localT, archiveT) ∧
    listChangedFiles .timedOut rawOpts ignoreRaw localT archiveT =
      .error .timeout ∧
    publish .timedOut rawOpts ignoreRaw localT archiveT =
      (.error .timeout, localT, archiveT) ∧
    revert .timedOut rawOpts ignoreRaw localT archiveT =
      (.error .timeout, localT, archiveT) ∧
    (isFileNameBinary (pathNormalize filepath) ≠ some true →
      diffFile .timedOut filepath localF archiveF = .error .timeout) := by
  refine ⟨rfl, rfl, rfl, rfl, fun h => ?_⟩
  unfold diffFile
  rw [if_neg h]
  rfl

/-- Witness for C7: a timed-out acquisition on a text-named file yields the
Timeout error. -/
theorem timeout_no_mutation_witness :
    diffFile .timedOut "a.txt".toList ⟨.error [], false, .error []⟩
      ⟨.error [], false, .error []⟩ = .error .timeout :=
  (timeout_no_mutation [] [] ⟨none, none, none⟩ (.error []) "a.txt".toList
    _ _).2.2.2.2 (by decide)

/-- C4: `publish` and `revert` hand the diff engine options with `shallow`
forced to `false` for every caller-supplied options object, and with
`shallow = false` every non-filtered differing path — descendants of changed
directories included — gets its own entry. -/
theorem publish_revert_force_deep :
    (∀ (rawOpts : RawOpts) (filt : List Char → Bool),
      (forcedDiffOpts (massageDiffOpts rawOpts) filt).shallow = false) ∧
    (∀ (src dst : FsTree) (opts : DiffOpts), opts.shallow = false →
      ∀ (p : List Char) (c : Change) (b : Bool),
        p ∈ treePaths src ++ treePaths dst →
        hiddenByFilter opts p = false →
        changeAt src dst opts.compareContent p = some (c, b) →
        DiffEntry.mk p c b ∈ dftDiff src dst opts) := by
  refine ⟨fun _ _ => rfl, ?_⟩
  intro src dst opts hsh p c b hmem hhid hch
  unfold dftDiff
  rw [List.mem_filterMap]
  refine ⟨p, ?_, ?_⟩
  · rw [mem_sortPaths, List.mem_dedup]
    exact hmem
  · simp [hhid, hsh, hch]

/-- Witness for C4: with `shallow := false` a file under a source-only
directory is reported as its own entry, and a caller opting into
`shallow: true` still yields forced-deep options. -/
theorem publish_revert_force_deep_witness :
    (forcedDiffOpts (massageDiffOpts ⟨none, some true, none⟩)
      (fun _ => false)).shallow = false ∧
    DiffEntry.mk "d/f".toList Change.add false ∈
      dftDiff [("d/f".toList, FNode.file [])] [] {shallow := false} :=
  ⟨publish_revert_force_deep.1 ⟨none, some true, none⟩ (fun _ => false),
    publish_revert_force_deep.2 _ _ _ rfl _ _ _ (by decide) (by decide)
      (by decide)⟩

/-- An always-true filter empties the modelled diff. -/
theorem dftDiff_eq_nil_of_filter_true (src dst : FsTree) (opts : DiffOpts)
    (f : List Char → Bool) (hf : opts.filter = some f)
    (h : ∀ p, f p = true) : dftDiff src dst opts = [] := by
  unfold dftDiff
  rw [List.filterMap_eq_nil_iff]
  intro p _
  simp [hiddenByFilter, hf, h]

/-- C10: an explicitly empty `paths` array survives option massaging as an
empty allow-list whose path-scope filter answers `true` (skip) everywhere,
so `listChangedFiles` returns no entries and `publish`/`revert` leave both
trees unchanged. -/
theorem empty_paths_excludes_all (rawOpts : RawOpts)
    (ignoreRaw : Except IOError (List Char)) (localT archiveT : FsTree)
    (hp : rawOpts.paths = some []) :
    (massageDiffOpts rawOpts).paths = some [] ∧
    (∀ p, makeDiffFilterByPaths [] p = true) ∧
    listChangedFiles .ok rawOpts ignoreRaw localT archiveT = .ok [] ∧
    publish .ok rawOpts ignoreRaw localT archiveT =
      (.ok (), localT, archiveT) ∧
    revert .ok rawOpts ignoreRaw localT archiveT =
      (.ok (), localT, archiveT) := by
  have hm : (massageDiffOpts rawOpts).paths = some [] := by
    simp [massageDiffOpts, hp]
  have hfilt : ∀ p, makeDiffFilterByPaths [] p = true := fun _ => rfl
  have htrue :
      ∀ p, buildDiffFilter (massageDiffOpts rawOpts).paths ignoreRaw p = true := by
    rw [hm]
    exact hfilt
  refine ⟨hm, hfilt, ?_, ?_, ?_⟩
  · simp only [listChangedFiles, timer]
    rw [dftDiff_eq_nil_of_filter_true _ _ _ _ rfl htrue]
  · simp only [publish, timer]
    rw [dftDiff_eq_nil_of_filter_true _ _ _ _ rfl htrue]
    rfl
  · simp only [revert, timer]
    rw [dftDiff_eq_nil_of_filter_true _ _ _ _ rfl htrue]
    rfl

/-- Witness for C10 on a workspace with one local-only file. -/
theorem empty_paths_excludes_all_witness :
    listChangedFiles .ok ⟨none, none, some []⟩ (.error [])
      [("foo".toList, FNode.file [])] [] = .ok [] ∧
    publish .ok ⟨none, none, some []⟩ (.error [])
      [("foo".toList, FNode.file [])] [] =
      (.ok (), [("foo".toList, FNode.file [])], []) :=
  ⟨(empty_paths_excludes_all _ _ _ _ rfl).2.2.1,
    (empty_paths_excludes_all _ _ _ _ rfl).2.2.2.1⟩

/-- C1: `setupFolder` keeps only `add` entries before applying, and any path
already present in the local tree (in particular one absent from the
archive) is left untouched by the apply. -/
theorem setupFolder_add_only (acq : AcqOutcome) (localT archiveT : FsTree)
    (p : List Char) (n : FNode) (hl : treeLookup localT p = some n)
    (ha : treeLookup archiveT p = none) :
    (∀ e ∈ setupFolderEntries localT archiveT, e.change = Change.add) ∧
    treeLookup (setupFolder acq localT archiveT).2.1 p = some n := by
  have hadd : ∀ e ∈ setupFolderEntries localT archiveT, e.change = Change.add := by
    intro e he
    unfold setupFolderEntries at he
    rw [List.mem_filter] at he
    simpa using he.2
  refine ⟨hadd, ?_⟩
  cases acq with
  | timedOut => simpa [setupFolder, timer] using hl
  | ok =>
    show treeLookup
      (applyRight archiveT localT (setupFolderEntries localT archiveT)) p = some n
    rw [applyRight_lookup_of_not_mem]
    · exact hl
    · intro e he hep
      have hmem : e ∈ dftDiff archiveT localT {} := by
        have := he
        unfold setupFolderEntries at this
        exact (List.mem_filter.mp this).1
      have hch := (mem_dftDiff_elim _ _ _ _ hmem).2
      rw [hadd e he] at hch
      have hnone := changeAt_add_dst_none _ _ _ _ _ hch
      rw [hep, hl] at hnone
      exact Option.some_ne_none n hnone

/-- Witness for C1: a local-only file survives `setupFolder` unchanged. -/
theorem setupFolder_add_only_witness :
    treeLookup
      (setupFolder .ok [("a".toList, FNode.file "x".toList)]
        [("b".toList, FNode.file "y".toList)]).2.1 "a".toList =
      some (FNode.file "x".toList) :=
  (setupFolder_add_only .ok _ _ "a".toList (FNode.file "x".toList)
    (by decide) (by decide)).2

/-- C2: the ignore compiler turns each non-empty line into one pattern
(non-rooted lines get the recursive-wildcard marker, so their literal text
matches at any depth), always appends the fixed `/.git` and `/.dat` rules
(an absent ignore file leaves exactly those two), and a path matching any
compiled rule never appears in `listChangedFiles` results when no `paths`
option is given. -/
theorem listChangedFiles_ignore_rules :
    (∀ e : IOError, readDatIgnore (.error e) =
      ["/.git".toList, "/.dat".toList]) ∧
    (∀ raw, readDatIgnore raw =
      ((splitOnChar '\n' (readFile raw)).filter (fun l => !l.isEmpty)).map
        (fun l => pathNormalize
          (if ['/'].isPrefixOf l then l else '*' :: '*' :: '/' :: l)) ++
      ["/.git".toList, "/.dat".toList]) ∧
    (∀ raw (l d : List Char), l ∈ splitOnChar '\n' (readFile raw) → l ≠ [] →
      ['/'].isPrefixOf l = false →
      pathNormalize ('*' :: '*' :: '/' :: l) = '*' :: '*' :: '/' :: l →
      anymatch (readDatIgnore raw) (d ++ '/' :: l) = true ∧
      anymatch (readDatIgnore raw) l = true) ∧
    (∀ (rawOpts : RawOpts) (ignoreRaw : Except IOError (List Char))
      (localT archiveT : FsTree) (p : List Char),
      rawOpts.paths = none →
      anymatch (readDatIgnore ignoreRaw) p = true →
      ∃ es, listChangedFiles .ok rawOpts ignoreRaw localT archiveT = .ok es ∧
        ∀ e ∈ es, e.path ≠ p) := by
  refine ⟨fun e => rfl, ?_, ?_, ?_⟩
  · intro raw
    simp only [readDatIgnore, List.map_append, List.map_map]
    rfl
  · intro raw l d hmem hne hpre hnorm
    have hpat : pathNormalize ('*' :: '*' :: '/' :: l) ∈ readDatIgnore raw := by
      simp only [readDatIgnore, List.map_append, List.map_map]
      apply List.mem_append_left
      rw [List.mem_map]
      refine ⟨l, List.mem_filter.mpr ⟨hmem, by simp [hne]⟩, ?_⟩
      have hnp : ¬ (['/'] <+: l) := by
        intro hc
        obtain ⟨t, ht⟩ := hc
        have h' : ['/'].isPrefixOf l = true := (isPrefixOfEq _ _).mpr ⟨t, ht.symm⟩
        rw [hpre] at h'
        exact absurd h' (by simp)
      simp [hpre, hnp]
    rw [hnorm] at hpat
    have hcond : (['*', '*', '/'].isPrefixOf ('*' :: '*' :: '/' :: l)) = true := by
      simp [List.isPrefixOf]
    constructor
    · unfold anymatch
      rw [List.any_eq_true]
      refine ⟨_, hpat, ?_⟩
      unfold patternMatches
      rw [hcond]
      simp only [if_true]
      rw [Bool.or_eq_true]
      right
      exact isSuffixOfEq ('/' :: l) (d ++ '/' :: l) |>.mpr ⟨d, rfl⟩
    · unfold anymatch
      rw [List.any_eq_true]
      refine ⟨_, hpat, ?_⟩
      unfold patternMatches
      rw [hcond]
      simp
  · intro ro ir lt arc p hpaths hmatch
    have hm : (massageDiffOpts ro).paths = none := by
      simp [massageDiffOpts, hpaths]
    refine ⟨dftDiff lt arc
        { compareContent := (massageDiffOpts ro).compareContent
          shallow := (massageDiffOpts ro).shallow
          filter := some (buildDiffFilter (massageDiffOpts ro).paths ir) },
      by simp only [listChangedFiles, timer], ?_⟩
    intro e he hep
    have h1 := (mem_dftDiff_elim _ _ _ _ he).1
    rw [hiddenByFilter] at h1
    simp only [Bool.or_eq_false_iff] at h1
    have h2 := h1.1
    rw [hm] at h2
    unfold buildDiffFilter at h2
    rw [hep] at h2
    have h3 : anymatch (readDatIgnore ir) p = false := h2
    rw [hmatch] at h3
    exact absurd h3 (by simp)

/-- Witness for C2: the line `node_modules` matches one level deep, and the
compiled rule set of that single-line ignore file is as described. -/
theorem listChangedFiles_ignore_rules_witness :
    anymatch (readDatIgnore (.ok "node_modules".toList))
      ("a".toList ++ '/' :: "node_modules".toList) = true :=
  (listChangedFiles_ignore_rules.2.2.1 (.ok "node_modules".toList)
    "node_modules".toList "a".toList (by decide) (by decide) (by decide)
    (by decide)).1

/-- Counterexample to C8 as stated: with the explicit allow-list `["foo"]`
the path-scope predicate answers `false` at `foo`, yet `foo` is exactly the
path included in the returned diff — so the predicate is not true on included
paths. -/
theorem filter_true_include_cex :
    makeDiffFilterByPaths ["foo".toList] "foo".toList = false ∧
    listChangedFiles .ok ⟨none, none, some [JSVal.str "foo".toList]⟩
      (.error []) [("foo".toList, FNode.file "a".toList)] [] =
      .ok [⟨"foo".toList, Change.add, false⟩] := by
  constructor
  · decide
  · decide

/-- C8 amended: the active FilterPredicate returns `true` exactly on paths
the diff skips — every entry a diff returns has predicate value `false`. -/
theorem filter_true_means_skip (src dst : FsTree) (opts : DiffOpts)
    (f : List Char → Bool) (hf : opts.filter = some f) :
    ∀ e ∈ dftDiff src dst opts, f e.path = false := by
  intro e he
  have h1 := (mem_dftDiff_elim _ _ _ _ he).1
  rw [hiddenByFilter, hf] at h1
  have h2 : (f e.path || (pathAncestors e.path).any f) = false := h1
  exact (Bool.or_eq_false_iff.mp h2).1

/-- Witness for the amended C8: the entry `foo` returned under the
path-scope filter for `["foo"]` has predicate value `false`. -/
theorem filter_true_means_skip_witness :
    makeDiffFilterByPaths ["foo".toList] "foo".toList = false :=
  filter_true_means_skip [("foo".toList, FNode.file "a".toList)] []
    {filter := some (makeDiffFilterByPaths ["foo".toList])}
    (makeDiffFilterByPaths ["foo".toList]) rfl
    ⟨"foo".toList, Change.add, false⟩ (by decide)

theorem get?_append_self (p s : List Char) :
    (p ++ s).get? p.length = s.head? := by
  induction p with
  | nil => cases s <;> rfl
  | cons c cs ih => simpa [List.get?] using ih

theorem prefixSep_iff (t p : List Char) :
    (p.isPrefixOf t = true ∧ t.get? p.length = some pathSep) ↔
    ∃ r, t = p ++ pathSep :: r := by
  constructor
  · rintro ⟨hp, hg⟩
    obtain ⟨s, rfl⟩ := (isPrefixOfEq p t).mp hp
    rw [get?_append_self] at hg
    cases s with
    | nil => simp at hg
    | cons c cs =>
      refine ⟨cs, ?_⟩
      have : c = pathSep := by simpa using hg
      rw [this]
  · rintro ⟨r, rfl⟩
    refine ⟨(isPrefixOfEq p _).mpr ⟨pathSep :: r, rfl⟩, ?_⟩
    rw [get?_append_self]
    rfl

theorem scopeTarget_iff (t p : List Char) :
    ((if t.getLast? = some pathSep then
        decide (p = t.dropLast) || t.isPrefixOf p
      else decide (p = t))
      || (p.isPrefixOf t && decide (t.get? p.length = some pathSep))) = true
    ↔ (p = t ∨ (t.getLast? = some pathSep ∧ t.isPrefixOf p = true) ∨
        ∃ r, t = p ++ pathSep :: r) := by
  by_cases hlast : t.getLast? = some pathSep
  · have hdec : t.dropLast ++ [pathSep] = t :=
      List.dropLast_append_getLast? pathSep (Option.mem_def.mpr hlast)
    rw [if_pos hlast]
    simp only [Bool.or_eq_true, Bool.and_eq_true, decide_eq_true_eq]
    constructor
    · rintro ((hdl | hpre) | hc)
      · exact Or.inr (Or.inr ⟨[], by rw [hdl]; exact hdec.symm⟩)
      · exact Or.inr (Or.inl ⟨hlast, hpre⟩)
      · exact Or.inr (Or.inr ((prefixSep_iff t p).mp hc))
    · rintro (rfl | ⟨_, hpre⟩ | ⟨r, hr⟩)
      · exact Or.inl (Or.inr ((isPrefixOfEq p p).mpr ⟨[], (List.append_nil p).symm⟩))
      · exact Or.inl (Or.inr hpre)
      · exact Or.inr ((prefixSep_iff t p).mpr ⟨r, hr⟩)
  · rw [if_neg hlast]
    simp only [Bool.or_eq_true, Bool.and_eq_true, decide_eq_true_eq]
    constructor
    · rintro (rfl | hc)
      · exact Or.inl rfl
      · exact Or.inr (Or.inr ((prefixSep_iff t p).mp hc))
    · rintro (rfl | ⟨hl, _⟩ | ⟨r, hr⟩)
      · exact Or.inl rfl
      · exact absurd hl hlast
      · exact Or.inr ((prefixSep_iff t p).mpr ⟨r, hr⟩)

/-- C3: over a non-empty allow-list of normalized targets the path-scope
predicate answers `false` exactly on: a path equal to a target, a path under
a directory target (trailing separator), and a (string-level) ancestor
directory of a target; a target without a trailing separator is matched only
by exact equality, never as a prefix of longer paths. -/
theorem makeDiffFilterByPaths_spec (targets : List (List Char))
    (hne : targets ≠ [])
    (hnorm : ∀ t ∈ targets, pathNormalize t = t) :
    (∀ p, makeDiffFilterByPaths targets p = false ↔
      specScopeExcluded targets p) ∧
    (∀ t p, pathNormalize t = t → t.getLast? ≠ some pathSep →
      t.isPrefixOf p = true → p ≠ t → makeDiffFilterByPaths [t] p = true) := by
  have hmap : targets.map pathNormalize = targets := by
    conv_rhs => rw [← List.map_id targets]
    exact List.map_congr_left hnorm
  constructor
  · intro p
    have hx : makeDiffFilterByPaths targets p =
        !(targets.any fun targetPath =>
          ((if targetPath.getLast? = some pathSep then
              decide (p = targetPath.dropLast) || targetPath.isPrefixOf p
            else decide (p = targetPath))
            || (p.isPrefixOf targetPath
                && decide (targetPath.get? p.length = some pathSep)))) := by
      simp only [makeDiffFilterByPaths, hmap]
    rw [hx]
    constructor
    · intro h
      have hany : (targets.any fun targetPath =>
          ((if targetPath.getLast? = some pathSep then
              decide (p = targetPath.dropLast) || targetPath.isPrefixOf p
            else decide (p = targetPath))
            || (p.isPrefixOf targetPath
                && decide (targetPath.get? p.length = some pathSep)))) = true := by
        simpa using h
      rw [List.any_eq_true] at hany
      obtain ⟨t, ht, hmatch⟩ := hany
      exact ⟨t, ht, (scopeTarget_iff t p).mp hmatch⟩
    · rintro ⟨t, ht, hspec⟩
      have hany : (targets.any fun targetPath =>
          ((if targetPath.getLast? = some pathSep then
              decide (p = targetPath.dropLast) || targetPath.isPrefixOf p
            else decide (p = targetPath))
            || (p.isPrefixOf targetPath
                && decide (targetPath.get? p.length = some pathSep)))) = true :=
        List.any_eq_true.mpr ⟨t, ht, (scopeTarget_iff t p).mpr hspec⟩
      rw [hany]
      rfl
  · intro t p hn hlast hpre hne2
    have hC : (p.isPrefixOf t && decide (t.get? p.length = some pathSep)) = false := by
      cases hb : (p.isPrefixOf t && decide (t.get? p.length = some pathSep)) with
      | false => rfl
      | true =>
        rw [Bool.and_eq_true] at hb
        obtain ⟨r, hr⟩ := (prefixSep_iff t p).mp ⟨hb.1, of_decide_eq_true hb.2⟩
        obtain ⟨s, hs⟩ := (isPrefixOfEq t p).mp hpre
        have h1 := congrArg List.length hr
        have h2 := congrArg List.length hs
        simp at h1 h2
        omega
    have hfirst : (if t.getLast? = some pathSep then
        decide (p = t.dropLast) || t.isPrefixOf p
      else decide (p = t)) = false := by
      rw [if_neg hlast]
      simpa using hne2
    have hshape : makeDiffFilterByPaths [t] p =
        !((if t.getLast? = some pathSep then
            decide (p = t.dropLast) || t.isPrefixOf p
          else decide (p = t))
          || (p.isPrefixOf t && decide (t.get? p.length = some pathSep))) := by
      simp only [makeDiffFilterByPaths, List.map_cons, List.map_nil, hn,
        List.any_cons, List.any_nil, Bool.or_false]
    rw [hshape, hfirst, hC]
    rfl

/-- Witness for C3: a path under the directory target `docs/` is matched,
while the file target `docs` never matches the longer path `docs/x`. -/
theorem makeDiffFilterByPaths_spec_witness :
    makeDiffFilterByPaths ["docs/".toList] "docs/a".toList = false ∧
    makeDiffFilterByPaths ["docs".toList] "docs/x".toList = true := by
  constructor
  · apply ((makeDiffFilterByPaths_spec ["docs/".toList] (by decide)
      (by decide)).1 "docs/a".toList).mpr
    unfold specScopeExcluded
    exact ⟨"docs/".toList, by decide, Or.inr (Or.inl ⟨by decide, by decide⟩)⟩
  · exact (makeDiffFilterByPaths_spec ["docs".toList] (by decide)
      (by decide)).2 "docs".toList "docs/x".toList (by decide) (by decide)
      (by decide) (by decide)
